import Mathlib

/-!
Verification of the wave-packet Crank–Nicolson simulation engine
(`WavePacket` class): a shallow embedding of the construction and
step code over exact real/complex arithmetic, together with proofs of
the specified properties of the grid, the potential profile, the
Hamiltonian, the propagation operator, and the per-step evolution.
-/

noncomputable section

open Matrix

/-- Embedding of `scipy.sparse.diags([d, u·ones(n-1), l·ones(n-1)], [0, 1, -1])`
as used by the source: the sum of a main diagonal given by `diag` and two
constant-valued bands at offsets `+1` and `-1` holding `upper` and `lower`. -/
def sparse_diags (n : ℕ) (diag : Fin n → ℝ) (upper lower : ℝ) :
    Matrix (Fin n) (Fin n) ℝ :=
  Matrix.of fun i j =>
    (if (j : ℕ) = (i : ℕ) then diag i else 0)
      + (if (j : ℕ) = (i : ℕ) + 1 then upper else 0)
      + (if (i : ℕ) = (j : ℕ) + 1 then lower else 0)

/-- Step 4 of `WavePacket.__init__`: the Hamiltonian matrix, with diagonal
`1/Δx² + V(xᵢ)` and both off-diagonals `-0.5/Δx²`. -/
def hamiltonian_matrix (n : ℕ) (delta_x : ℝ) (potential_barrier : Fin n → ℝ) :
    Matrix (Fin n) (Fin n) ℝ :=
  sparse_diags n (fun i => 1 / delta_x ^ 2 + potential_barrier i)
    (-0.5 / delta_x ^ 2) (-0.5 / delta_x ^ 2)

/-- Step 5 of `WavePacket.__init__`: `sparse.eye(n) - time_step / 2.0j * H`
(the matrix the source names B). -/
def backward_part (n : ℕ) (time_step : ℝ) (H : Matrix (Fin n) (Fin n) ℝ) :
    Matrix (Fin n) (Fin n) ℂ :=
  1 - (((time_step : ℂ) / (2 * Complex.I)) • H.map Complex.ofReal)

/-- Step 5 of `WavePacket.__init__`: `sparse.eye(n) + time_step / 2.0j * H`
(the matrix the source names A). -/
def forward_part (n : ℕ) (time_step : ℝ) (H : Matrix (Fin n) (Fin n) ℝ) :
    Matrix (Fin n) (Fin n) ℂ :=
  1 + (((time_step : ℂ) / (2 * Complex.I)) • H.map Complex.ofReal)

/-- Step 5 of `WavePacket.__init__`: `la.inv(backward_part).dot(forward_part)`. -/
def evolution_operator_of (n : ℕ) (time_step : ℝ)
    (H : Matrix (Fin n) (Fin n) ℝ) : Matrix (Fin n) (Fin n) ℂ :=
  (backward_part n time_step H)⁻¹ * forward_part n time_step H

/-- State of the `WavePacket` engine: exactly the attributes the source
stores on `self` in `__init__` (with the grid size `n` also reflected in
the index type of the arrays). -/
structure WavePacket (n : ℕ) where
  grid_size : ℕ
  time_step : ℝ
  potential_height : ℝ
  potential_width : ℝ
  packet_width : ℝ
  wave_number : ℝ
  packet_center : ℝ
  prob_density : Fin n → ℝ
  x_values : Fin n → ℝ
  delta_x : ℝ
  wave_function : Fin n → ℂ
  potential_barrier : Fin n → ℝ
  evolution_operator : Matrix (Fin n) (Fin n) ℂ

/-- Embedding of `WavePacket.__init__`: discretize the grid with
`np.linspace`, build the Gaussian × plane-wave initial wavefunction, the
rectangular potential barrier, the Hamiltonian, and the Crank–Nicolson
evolution operator.  The source performs no explicit parameter
validation; this total model is faithful to it on parameter sets with
`grid_size ≥ 2` and `packet_width ≠ 0`.  Outside that region the source
aborts with numeric errors this exact-arithmetic model does not
represent: `packet_width = 0` raises `ZeroDivisionError` at
`0.0 ** -0.25`, and `grid_size = 0` raises `ValueError` at
`np.ones(grid_size - 1)`, while `grid_size = 1` yields a NaN grid step
from `np.linspace`. -/
def WavePacket.init (grid_size : ℕ) (time_step potential_height potential_width
    wave_number packet_width packet_center x_min x_max : ℝ) :
    WavePacket grid_size :=
  let delta_x : ℝ := (x_max - x_min) / ((grid_size : ℝ) - 1)
  let x_values : Fin grid_size → ℝ := fun i => x_min + (i : ℕ) * delta_x
  let wave_function : Fin grid_size → ℂ := fun i =>
    ((Real.exp (-(x_values i - packet_center) ^ 2 / (4 * packet_width ^ 2)) : ℝ) : ℂ)
      * Complex.exp (Complex.I * (wave_number : ℂ) * (x_values i : ℂ))
      * (((2 * Real.pi * packet_width ^ 2) ^ (-0.25 : ℝ) : ℝ) : ℂ)
  let potential_barrier : Fin grid_size → ℝ := fun i =>
    if 0 < x_values i ∧ x_values i < potential_width then potential_height else 0
  { grid_size := grid_size
    time_step := time_step
    potential_height := potential_height
    potential_width := potential_width
    packet_width := packet_width
    wave_number := wave_number
    packet_center := packet_center
    prob_density := fun _ => 0
    x_values := x_values
    delta_x := delta_x
    wave_function := wave_function
    potential_barrier := potential_barrier
    evolution_operator :=
      evolution_operator_of grid_size time_step
        (hamiltonian_matrix grid_size delta_x potential_barrier) }

/-- First line of `evolve_wave_function`: the wavefunction after applying
the evolution operator, before renormalization. -/
def WavePacket.new_wave_function {n : ℕ} (w : WavePacket n) : Fin n → ℂ :=
  w.evolution_operator.mulVec w.wave_function

/-- Second line of `evolve_wave_function`: `abs(wave_function)**2`. -/
def WavePacket.raw_density {n : ℕ} (w : WavePacket n) : Fin n → ℝ :=
  fun i => Complex.abs (w.new_wave_function i) ^ 2

/-- `total_probability = sum(prob_density)` in `evolve_wave_function`. -/
def WavePacket.total_probability {n : ℕ} (w : WavePacket n) : ℝ :=
  ∑ i, w.raw_density i

/-- Embedding of `WavePacket.evolve_wave_function`: apply the evolution
operator, compute `|ψ|²`, divide the density by its total and the
wavefunction by `total ** 0.5`, store both on the state, and return the
renormalized density. -/
def WavePacket.evolve_wave_function {n : ℕ} (w : WavePacket n) :
    WavePacket n × (Fin n → ℝ) :=
  ({ w with
      wave_function := fun i =>
        w.new_wave_function i / ((w.total_probability ^ (0.5 : ℝ) : ℝ) : ℂ)
      prob_density := fun i => w.raw_density i / w.total_probability },
    fun i => w.raw_density i / w.total_probability)

/-- One engine step as a state transformer (the state component of
`evolve_wave_function`). -/
def WavePacket.step {n : ℕ} (w : WavePacket n) : WavePacket n :=
  (w.evolve_wave_function).1

/-- The propagation operator exactly as the specification writes it:
`(I + iΔt/2·H)⁻¹ (I − iΔt/2·H)`. -/
def spec_propagation_operator (n : ℕ) (time_step : ℝ)
    (H : Matrix (Fin n) (Fin n) ℝ) : Matrix (Fin n) (Fin n) ℂ :=
  (1 + ((Complex.I * (time_step : ℂ) / 2) • H.map Complex.ofReal))⁻¹
    * (1 - ((Complex.I * (time_step : ℂ) / 2) • H.map Complex.ofReal))

/-- The initial wavefunction exactly as the specification writes it:
`(2π·σ²)^(−1/4) · exp(−(x−c)²/(4σ²)) · exp(i·k·x)`. -/
def spec_initial_wavefunction (packet_width packet_center wave_number x : ℝ) : ℂ :=
  (((2 * Real.pi * packet_width ^ 2) ^ (-(1 / 4) : ℝ) : ℝ) : ℂ)
    * Complex.exp (((-(x - packet_center) ^ 2 / (4 * packet_width ^ 2) : ℝ) : ℂ))
    * Complex.exp (Complex.I * (wave_number : ℂ) * (x : ℂ))

section InitFields

variable (n : ℕ) (t ph pw k σ c x_min x_max : ℝ)

lemma init_delta_x :
    (WavePacket.init n t ph pw k σ c x_min x_max).delta_x
      = (x_max - x_min) / ((n : ℝ) - 1) := rfl

lemma init_x_values :
    (WavePacket.init n t ph pw k σ c x_min x_max).x_values
      = fun i : Fin n => x_min + (i : ℕ) * ((x_max - x_min) / ((n : ℝ) - 1)) := rfl

lemma init_prob_density :
    (WavePacket.init n t ph pw k σ c x_min x_max).prob_density = fun _ => 0 := rfl

lemma init_potential_barrier :
    (WavePacket.init n t ph pw k σ c x_min x_max).potential_barrier
      = fun i : Fin n =>
          if 0 < (WavePacket.init n t ph pw k σ c x_min x_max).x_values i ∧
              (WavePacket.init n t ph pw k σ c x_min x_max).x_values i < pw
          then ph else 0 := rfl

lemma init_wave_function :
    (WavePacket.init n t ph pw k σ c x_min x_max).wave_function
      = fun i : Fin n =>
          ((Real.exp (-((WavePacket.init n t ph pw k σ c x_min x_max).x_values i - c) ^ 2
              / (4 * σ ^ 2)) : ℝ) : ℂ)
            * Complex.exp (Complex.I * (k : ℂ)
                * ((WavePacket.init n t ph pw k σ c x_min x_max).x_values i : ℂ))
            * (((2 * Real.pi * σ ^ 2) ^ (-0.25 : ℝ) : ℝ) : ℂ) := rfl

lemma init_evolution_operator :
    (WavePacket.init n t ph pw k σ c x_min x_max).evolution_operator
      = evolution_operator_of n t
          (hamiltonian_matrix n ((WavePacket.init n t ph pw k σ c x_min x_max).delta_x)
            ((WavePacket.init n t ph pw k σ c x_min x_max).potential_barrier)) := rfl

end InitFields

lemma time_step_div_two_j (t : ℝ) :
    (t : ℂ) / (2 * Complex.I) = -(Complex.I * (t : ℂ) / 2) := by
  have h2I : (2 : ℂ) * Complex.I ≠ 0 := by
    simp [Complex.I_ne_zero]
  field_simp
  ring_nf
  rw [Complex.I_sq]
  ring

lemma backward_part_eq (n : ℕ) (t : ℝ) (H : Matrix (Fin n) (Fin n) ℝ) :
    backward_part n t H = 1 + ((Complex.I * (t : ℂ) / 2) • H.map Complex.ofReal) := by
  unfold backward_part
  rw [time_step_div_two_j, neg_smul, sub_neg_eq_add]

lemma forward_part_eq (n : ℕ) (t : ℝ) (H : Matrix (Fin n) (Fin n) ℝ) :
    forward_part n t H = 1 - ((Complex.I * (t : ℂ) / 2) • H.map Complex.ofReal) := by
  unfold forward_part
  rw [time_step_div_two_j, neg_smul]
  exact sub_eq_add_neg _ _ |>.symm

/-- C1: the propagation operator the code derives at construction — via
`backward_part` and `forward_part`, whose division by `2.0j` negates the
imaginary factor — equals the specification's matrix expression
`(I + iΔt/2·H)⁻¹ (I − iΔt/2·H)`, where `H` is the assembled Hamiltonian
and `Δt` the fixed time step. -/
theorem C1_propagation_operator_eq_spec (n : ℕ)
    (t ph pw k σ c x_min x_max : ℝ) :
    (WavePacket.init n t ph pw k σ c x_min x_max).evolution_operator
      = spec_propagation_operator n t
          (hamiltonian_matrix n ((WavePacket.init n t ph pw k σ c x_min x_max).delta_x)
            ((WavePacket.init n t ph pw k σ c x_min x_max).potential_barrier)) := by
  rw [init_evolution_operator]
  unfold evolution_operator_of spec_propagation_operator
  rw [backward_part_eq, forward_part_eq]

/-- C6: at every grid point, the wavefunction built at construction equals
the specification's formula
`(2π·σ²)^(−1/4) · exp(−(x−c)²/(4σ²)) · exp(i·k·x)`. -/
theorem C6_initial_wavefunction_eq_spec (n : ℕ)
    (t ph pw k σ c x_min x_max : ℝ) (i : Fin n) :
    (WavePacket.init n t ph pw k σ c x_min x_max).wave_function i
      = spec_initial_wavefunction σ c k
          ((WavePacket.init n t ph pw k σ c x_min x_max).x_values i) := by
  rw [init_wave_function]
  unfold spec_initial_wavefunction
  have h14 : (-0.25 : ℝ) = -(1 / 4 : ℝ) := by norm_num
  rw [h14]
  simp only [Complex.ofReal_exp]
  ring

/-- C7: the potential profile has one value per grid point, equal to
`potential_height` where the grid coordinate lies strictly between `0`
and `potential_width` and `0` otherwise; `potential_width = 0` yields the
all-zero potential. -/
theorem C7_potential_profile (n : ℕ) (t ph pw k σ c x_min x_max : ℝ) (i : Fin n) :
    ((0 < (WavePacket.init n t ph pw k σ c x_min x_max).x_values i ∧
        (WavePacket.init n t ph pw k σ c x_min x_max).x_values i < pw →
        (WavePacket.init n t ph pw k σ c x_min x_max).potential_barrier i = ph)
      ∧ (¬(0 < (WavePacket.init n t ph pw k σ c x_min x_max).x_values i ∧
            (WavePacket.init n t ph pw k σ c x_min x_max).x_values i < pw) →
          (WavePacket.init n t ph pw k σ c x_min x_max).potential_barrier i = 0))
      ∧ (pw = 0 → (WavePacket.init n t ph pw k σ c x_min x_max).potential_barrier i = 0) := by
  simp only [init_potential_barrier]
  refine ⟨⟨fun h => if_pos h, fun h => if_neg h⟩, fun hpw => ?_⟩
  subst hpw
  have hno : ¬(0 < (WavePacket.init n t ph 0 k σ c x_min x_max).x_values i ∧
      (WavePacket.init n t ph 0 k σ c x_min x_max).x_values i < 0) := by
    rintro ⟨h1, h2⟩
    exact absurd (h1.trans h2) (lt_irrefl (0 : ℝ))
  exact if_neg hno

/-- C9: a step call leaves the grid positions, grid spacing, potential
profile, propagation operator, and all scalar configuration attributes
unchanged; only the wavefunction state and the probability density are
reassigned. -/
theorem C9_step_preserves_construction_data (n : ℕ) (w : WavePacket n) :
    (w.evolve_wave_function).1.x_values = w.x_values
      ∧ (w.evolve_wave_function).1.delta_x = w.delta_x
      ∧ (w.evolve_wave_function).1.potential_barrier = w.potential_barrier
      ∧ (w.evolve_wave_function).1.evolution_operator = w.evolution_operator
      ∧ (w.evolve_wave_function).1.grid_size = w.grid_size
      ∧ (w.evolve_wave_function).1.time_step = w.time_step
      ∧ (w.evolve_wave_function).1.potential_height = w.potential_height
      ∧ (w.evolve_wave_function).1.potential_width = w.potential_width
      ∧ (w.evolve_wave_function).1.packet_width = w.packet_width
      ∧ (w.evolve_wave_function).1.wave_number = w.wave_number
      ∧ (w.evolve_wave_function).1.packet_center = w.packet_center :=
  ⟨rfl, rfl, rfl, rfl, rfl, rfl, rfl, rfl, rfl, rfl, rfl⟩

lemma evolve_snd_eq {n : ℕ} (w : WavePacket n) :
    (w.evolve_wave_function).2 = fun i => w.raw_density i / w.total_probability := rfl

lemma evolve_fst_wave_function {n : ℕ} (w : WavePacket n) :
    (w.evolve_wave_function).1.wave_function
      = fun i => w.new_wave_function i / ((w.total_probability ^ (0.5 : ℝ) : ℝ) : ℂ) := rfl

lemma raw_density_nonneg {n : ℕ} (w : WavePacket n) (i : Fin n) :
    0 ≤ w.raw_density i := by
  unfold WavePacket.raw_density
  positivity

lemma total_probability_nonneg {n : ℕ} (w : WavePacket n) :
    0 ≤ w.total_probability :=
  Finset.sum_nonneg fun i _ => raw_density_nonneg w i

lemma sum_raw_density {n : ℕ} (w : WavePacket n) :
    ∑ i, w.raw_density i = w.total_probability := rfl

/-- C2: whenever the total probability computed during a step is nonzero,
the density returned by the step is elementwise nonnegative and sums
exactly to `1` (the density is `|ψ|²` divided by its own sum). -/
theorem C2_density_nonneg_sums_to_one {n : ℕ} (w : WavePacket n)
    (h : w.total_probability ≠ 0) :
    (∀ i, 0 ≤ (w.evolve_wave_function).2 i)
      ∧ ∑ i, (w.evolve_wave_function).2 i = 1 := by
  constructor
  · intro i
    rw [evolve_snd_eq]
    exact div_nonneg (raw_density_nonneg w i) (total_probability_nonneg w)
  · simp only [evolve_snd_eq]
    rw [← Finset.sum_div, sum_raw_density]
    exact div_self h

/-- C10: after a step in which the total probability is nonzero, the
stored wavefunction satisfies `∑ |ψᵢ|² = 1` exactly, and the returned
density equals `|ψᵢ|²` of the post-step wavefunction at every point. -/
theorem C10_poststep_consistency {n : ℕ} (w : WavePacket n)
    (h : w.total_probability ≠ 0) :
    (∑ i, Complex.abs ((w.evolve_wave_function).1.wave_function i) ^ 2 = 1)
      ∧ ∀ i, (w.evolve_wave_function).2 i
          = Complex.abs ((w.evolve_wave_function).1.wave_function i) ^ 2 := by
  have htot : 0 ≤ w.total_probability := total_probability_nonneg w
  have hsq : (w.total_probability ^ (0.5 : ℝ)) ^ 2 = w.total_probability := by
    rw [← Real.rpow_natCast (w.total_probability ^ (0.5 : ℝ)) 2, ← Real.rpow_mul htot]
    norm_num
  have key : ∀ i, Complex.abs ((w.evolve_wave_function).1.wave_function i) ^ 2
      = w.raw_density i / w.total_probability := by
    intro i
    simp only [evolve_fst_wave_function]
    rw [map_div₀, Complex.abs_ofReal,
      abs_of_nonneg (Real.rpow_nonneg htot (0.5 : ℝ)), div_pow, hsq]
    rfl
  constructor
  · calc ∑ i, Complex.abs ((w.evolve_wave_function).1.wave_function i) ^ 2
        = ∑ i, w.raw_density i / w.total_probability := by
          exact Finset.sum_congr rfl fun i _ => key i
      _ = 1 := by rw [← Finset.sum_div, sum_raw_density]; exact div_self h
  · intro i
    rw [key i, evolve_snd_eq]

/-- A concrete one-point engine state with unit wavefunction and
identity evolution operator, used to exercise the step operation. -/
def testPacket : WavePacket 1 :=
  { grid_size := 1
    time_step := 1
    potential_height := 0
    potential_width := 0
    packet_width := 1
    wave_number := 0
    packet_center := 0
    prob_density := fun _ => 0
    x_values := fun _ => 0
    delta_x := 1
    wave_function := fun _ => 1
    potential_barrier := fun _ => 0
    evolution_operator := 1 }

lemma testPacket_total : testPacket.total_probability = 1 := by
  unfold WavePacket.total_probability WavePacket.raw_density WavePacket.new_wave_function
    testPacket
  simp [Matrix.one_mulVec]

/-- Witness for C2 at the concrete state `testPacket`. -/
theorem C2_witness :
    testPacket.total_probability ≠ 0
      ∧ ((∀ i, 0 ≤ (testPacket.evolve_wave_function).2 i)
          ∧ ∑ i, (testPacket.evolve_wave_function).2 i = 1) := by
  have h : testPacket.total_probability ≠ 0 := by
    rw [testPacket_total]; norm_num
  exact ⟨h, C2_density_nonneg_sums_to_one testPacket h⟩

/-- Witness for C10 at the concrete state `testPacket`. -/
theorem C10_witness :
    testPacket.total_probability ≠ 0
      ∧ ((∑ i, Complex.abs ((testPacket.evolve_wave_function).1.wave_function i) ^ 2 = 1)
          ∧ ∀ i, (testPacket.evolve_wave_function).2 i
              = Complex.abs ((testPacket.evolve_wave_function).1.wave_function i) ^ 2) := by
  have h : testPacket.total_probability ≠ 0 := by
    rw [testPacket_total]; norm_num
  exact ⟨h, C10_poststep_consistency testPacket h⟩

/-- C3 counterexample: with `grid_size = 2 < 3` (an invalid configuration
per the claim) the source construction — which contains no parameter
validation and no raise — still produces a fully formed engine, with its
grid spacing computed as usual; no `InvalidConfiguration` failure occurs. -/
theorem C3_counterexample :
    (WavePacket.init 2 5 1 10 1 5 (-50) (-200) 200).grid_size = 2
      ∧ (WavePacket.init 2 5 1 10 1 5 (-50) (-200) 200).delta_x = 400 := by
  constructor
  · rfl
  · rw [init_delta_x]; norm_num

/-- C3 amended: construction performs no explicit parameter validation
and raises no `InvalidConfiguration`: on invalid parameter sets where the
source runs to completion — grid size `2` (below the minimum `3`),
non-monotonic bounds, or zero time step, keeping `grid_size ≥ 2` and
`packet_width ≠ 0` so that no numeric error path of the source is
entered — an engine is nonetheless produced, with its fields computed by
the usual formulas.  (With `packet_width = 0` or `grid_size = 0` the
source does abort, but with numpy's `ZeroDivisionError` / `ValueError`,
not with an `InvalidConfiguration` error.) -/
theorem C3_amended_no_validation (n : ℕ) (t ph pw k σ c x_min x_max : ℝ)
    (_hn : 2 ≤ n) (_hσ : σ ≠ 0)
    (_invalid : n < 3 ∨ x_max ≤ x_min ∨ t = 0) :
    (WavePacket.init n t ph pw k σ c x_min x_max).grid_size = n
      ∧ (WavePacket.init n t ph pw k σ c x_min x_max).delta_x
          = (x_max - x_min) / ((n : ℝ) - 1)
      ∧ (WavePacket.init n t ph pw k σ c x_min x_max).time_step = t :=
  ⟨rfl, rfl, rfl⟩

/-- Witness for the amended C3 at a concrete invalid parameter set. -/
theorem C3_witness :
    (2 ≤ 2 ∧ (1 : ℝ) ≠ 0 ∧ (2 < 3 ∨ (1 : ℝ) ≤ 0 ∨ (1 : ℝ) = 0))
      ∧ ((WavePacket.init 2 1 1 1 1 1 1 0 1).grid_size = 2
          ∧ (WavePacket.init 2 1 1 1 1 1 1 0 1).delta_x = (1 - 0) / ((2 : ℝ) - 1)
          ∧ (WavePacket.init 2 1 1 1 1 1 1 0 1).time_step = 1) := by
  have hn : (2 : ℕ) ≤ 2 := by norm_num
  have hσ : (1 : ℝ) ≠ 0 := by norm_num
  have h : 2 < 3 ∨ (1 : ℝ) ≤ 0 ∨ (1 : ℝ) = 0 := Or.inl (by norm_num)
  exact ⟨⟨hn, hσ, h⟩, C3_amended_no_validation 2 1 1 1 1 1 1 0 1 hn hσ h⟩

/-- A concrete one-point engine state whose wavefunction is identically
zero, so that the step's total probability is zero. -/
def zeroPacket : WavePacket 1 :=
  { testPacket with wave_function := fun _ => 0 }

lemma zeroPacket_total : zeroPacket.total_probability = 0 := by
  unfold WavePacket.total_probability WavePacket.raw_density WavePacket.new_wave_function
    zeroPacket testPacket
  simp [Matrix.one_mulVec]

/-- C4 counterexample: at the concrete zero state the total probability is
`0`, yet the step operation returns normally — the returned value is the
raw density divided by the zero total (no `DegenerateState` failure exists
in the source), which in the exact-arithmetic model is `0`. -/
theorem C4_counterexample :
    zeroPacket.total_probability = 0
      ∧ (zeroPacket.evolve_wave_function).2 0
          = zeroPacket.raw_density 0 / zeroPacket.total_probability
      ∧ (zeroPacket.evolve_wave_function).2 0 = 0 := by
  refine ⟨zeroPacket_total, rfl, ?_⟩
  rw [evolve_snd_eq, zeroPacket_total]
  simp

/-- C4 amended: the step operation contains no zero-total check: when the
total probability is `0` it still returns a density array, namely the raw
density divided by the zero total (elementwise `0` under the
exact-arithmetic division convention), instead of failing. -/
theorem C4_amended_no_degenerate_check {n : ℕ} (w : WavePacket n)
    (h : w.total_probability = 0) :
    (∀ i, (w.evolve_wave_function).2 i = w.raw_density i / w.total_probability)
      ∧ ∀ i, (w.evolve_wave_function).2 i = 0 := by
  refine ⟨fun i => rfl, fun i => ?_⟩
  rw [evolve_snd_eq, h]
  simp

/-- C5: the assembled Hamiltonian is an N×N symmetric tridiagonal matrix:
diagonal entry `i` is `1/Δx² + potential[i]`, the entries on the super-
and sub-diagonal are all `−0.5/Δx²`, and every other entry is `0`. -/
theorem C5_hamiltonian_tridiagonal_symmetric (n : ℕ) (dx : ℝ) (V : Fin n → ℝ)
    (i j : Fin n) :
    (hamiltonian_matrix n dx V i i = 1 / dx ^ 2 + V i)
      ∧ ((j : ℕ) = (i : ℕ) + 1 → hamiltonian_matrix n dx V i j = -0.5 / dx ^ 2)
      ∧ ((i : ℕ) = (j : ℕ) + 1 → hamiltonian_matrix n dx V i j = -0.5 / dx ^ 2)
      ∧ (i ≠ j → (j : ℕ) ≠ (i : ℕ) + 1 → (i : ℕ) ≠ (j : ℕ) + 1 →
          hamiltonian_matrix n dx V i j = 0)
      ∧ (hamiltonian_matrix n dx V)ᵀ = hamiltonian_matrix n dx V := by
  refine ⟨?_, fun hup => ?_, fun hlo => ?_, fun hne hnup hnlo => ?_, ?_⟩
  · have h2 : ¬((i : ℕ) = (i : ℕ) + 1) := by omega
    simp [hamiltonian_matrix, sparse_diags, h2]
  · have hne1 : ¬((j : ℕ) = (i : ℕ)) := by omega
    have hne2 : ¬((i : ℕ) = (j : ℕ) + 1) := by omega
    have hne3 : ¬((i : ℕ) = (i : ℕ) + 1 + 1) := by omega
    simp [hamiltonian_matrix, sparse_diags, hup, hne1, hne2, hne3]
  · have hne1 : ¬((j : ℕ) = (i : ℕ)) := by omega
    have hne2 : ¬((j : ℕ) = (i : ℕ) + 1) := by omega
    have hne3 : ¬((j : ℕ) = (j : ℕ) + 1 + 1) := by omega
    simp [hamiltonian_matrix, sparse_diags, hlo, hne1, hne2, hne3]
  · have hvne : ¬((j : ℕ) = (i : ℕ)) := fun hh => hne (Fin.ext hh.symm)
    simp [hamiltonian_matrix, sparse_diags, hvne, hnup, hnlo]
  · ext a b
    simp only [hamiltonian_matrix, sparse_diags, Matrix.of_apply, Matrix.transpose_apply]
    have h1 : (if ((a : ℕ) = (b : ℕ)) then 1 / dx ^ 2 + V b else 0)
        = (if ((b : ℕ) = (a : ℕ)) then 1 / dx ^ 2 + V a else 0) := by
      by_cases hab : (a : ℕ) = (b : ℕ)
      · have hab2 : a = b := Fin.ext hab
        subst hab2
        simp
      · rw [if_neg hab, if_neg (fun hh => hab hh.symm)]
    rw [h1]
    ring

/-- Witness for C5 at a concrete size, spacing, potential, and index pair. -/
theorem C5_witness :
    (((1 : Fin 3) : ℕ) = ((0 : Fin 3) : ℕ) + 1)
      ∧ hamiltonian_matrix 3 1 (fun _ => 0) 0 1 = -0.5 / (1 : ℝ) ^ 2 := by
  have h : ((1 : Fin 3) : ℕ) = ((0 : Fin 3) : ℕ) + 1 := rfl
  exact ⟨h, (C5_hamiltonian_tridiagonal_symmetric 3 1 (fun _ => 0) 0 1).2.1 h⟩

/-- Witness for the amended C4 at the concrete state `zeroPacket`. -/
theorem C4_witness :
    zeroPacket.total_probability = 0
      ∧ (zeroPacket.evolve_wave_function).2 0 = 0 := by
  have h := zeroPacket_total
  exact ⟨h, (C4_amended_no_degenerate_check zeroPacket h).2 0⟩

/-- Witness for C7: on the grid `-1, 0, 1` with barrier width `2` and
height `5`, the grid point `x = 1` lies strictly inside `(0, 2)` and the
potential there is `5`. -/
theorem C7_witness :
    (0 < (WavePacket.init 3 1 5 2 0 1 0 (-1) 1).x_values ⟨2, by norm_num⟩ ∧
        (WavePacket.init 3 1 5 2 0 1 0 (-1) 1).x_values ⟨2, by norm_num⟩ < 2)
      ∧ (WavePacket.init 3 1 5 2 0 1 0 (-1) 1).potential_barrier ⟨2, by norm_num⟩ = 5 := by
  have hx : (WavePacket.init 3 1 5 2 0 1 0 (-1) 1).x_values ⟨2, by norm_num⟩ = 1 := by
    simp only [init_x_values]
    norm_num
  have h : 0 < (WavePacket.init 3 1 5 2 0 1 0 (-1) 1).x_values ⟨2, by norm_num⟩ ∧
      (WavePacket.init 3 1 5 2 0 1 0 (-1) 1).x_values ⟨2, by norm_num⟩ < 2 := by
    rw [hx]; norm_num
  exact ⟨h, (C7_potential_profile 3 1 5 2 0 1 0 (-1) 1 ⟨2, by norm_num⟩).1.1 h⟩

/-- The index-reflection permutation matrix `J`, with `J·v` reversing a
vector: the key object for the free-propagation symmetry argument. -/
def reflectMatrix (n : ℕ) : Matrix (Fin n) (Fin n) ℂ :=
  Matrix.of fun i j => if j = Fin.rev i then 1 else 0

lemma reflectMatrix_mul_apply {n : ℕ} (M : Matrix (Fin n) (Fin n) ℂ) (i j : Fin n) :
    (reflectMatrix n * M) i j = M (Fin.rev i) j := by
  rw [Matrix.mul_apply, Finset.sum_eq_single (Fin.rev i)]
  · simp [reflectMatrix]
  · intro b _ hb
    simp [reflectMatrix, hb]
  · intro hmem
    exact absurd (Finset.mem_univ _) hmem

lemma mul_reflectMatrix_apply {n : ℕ} (M : Matrix (Fin n) (Fin n) ℂ) (i j : Fin n) :
    (M * reflectMatrix n) i j = M i (Fin.rev j) := by
  rw [Matrix.mul_apply, Finset.sum_eq_single (Fin.rev j)]
  · simp [reflectMatrix, Fin.rev_rev]
  · intro b _ hb
    have hnb : ¬(j = Fin.rev b) := by
      intro h
      exact hb (by rw [h, Fin.rev_rev])
    simp [reflectMatrix, hnb]
  · intro hmem
    exact absurd (Finset.mem_univ _) hmem

lemma reflect_conj_apply {n : ℕ} (M : Matrix (Fin n) (Fin n) ℂ) (i j : Fin n) :
    (reflectMatrix n * M * reflectMatrix n) i j = M (Fin.rev i) (Fin.rev j) := by
  rw [mul_reflectMatrix_apply, reflectMatrix_mul_apply]

lemma reflectMatrix_mul_self (n : ℕ) : reflectMatrix n * reflectMatrix n = 1 := by
  ext i j
  rw [reflectMatrix_mul_apply]
  by_cases h : i = j
  · subst h
    simp [reflectMatrix, Fin.rev_rev, Matrix.one_apply]
  · simp [reflectMatrix, Fin.rev_rev, Matrix.one_apply, h, Ne.symm h]

lemma reflectMatrix_inv (n : ℕ) : (reflectMatrix n)⁻¹ = reflectMatrix n :=
  Matrix.inv_eq_right_inv (reflectMatrix_mul_self n)

lemma reflect_conj_inv {n : ℕ} (M : Matrix (Fin n) (Fin n) ℂ)
    (hM : reflectMatrix n * M * reflectMatrix n = M) :
    reflectMatrix n * M⁻¹ * reflectMatrix n = M⁻¹ := by
  have hJJ := reflectMatrix_mul_self n
  calc reflectMatrix n * M⁻¹ * reflectMatrix n
      = reflectMatrix n * (reflectMatrix n * M * reflectMatrix n)⁻¹ * reflectMatrix n := by
        rw [hM]
    _ = reflectMatrix n * ((reflectMatrix n)⁻¹ * ((reflectMatrix n * M)⁻¹))
          * reflectMatrix n := by rw [Matrix.mul_inv_rev]
    _ = reflectMatrix n * ((reflectMatrix n)⁻¹ * (M⁻¹ * (reflectMatrix n)⁻¹))
          * reflectMatrix n := by rw [Matrix.mul_inv_rev]
    _ = reflectMatrix n * (reflectMatrix n * (M⁻¹ * reflectMatrix n))
          * reflectMatrix n := by rw [reflectMatrix_inv]
    _ = (reflectMatrix n * reflectMatrix n) * M⁻¹
          * (reflectMatrix n * reflectMatrix n) := by noncomm_ring
    _ = M⁻¹ := by rw [hJJ, one_mul, mul_one]

lemma backward_part_conj {n : ℕ} (t : ℝ) (H : Matrix (Fin n) (Fin n) ℝ)
    (hH : reflectMatrix n * H.map Complex.ofReal * reflectMatrix n = H.map Complex.ofReal) :
    reflectMatrix n * backward_part n t H * reflectMatrix n = backward_part n t H := by
  unfold backward_part
  rw [Matrix.mul_sub, Matrix.sub_mul, mul_one, reflectMatrix_mul_self,
    Matrix.mul_smul, Matrix.smul_mul, hH]

lemma forward_part_conj {n : ℕ} (t : ℝ) (H : Matrix (Fin n) (Fin n) ℝ)
    (hH : reflectMatrix n * H.map Complex.ofReal * reflectMatrix n = H.map Complex.ofReal) :
    reflectMatrix n * forward_part n t H * reflectMatrix n = forward_part n t H := by
  unfold forward_part
  rw [Matrix.mul_add, Matrix.add_mul, mul_one, reflectMatrix_mul_self,
    Matrix.mul_smul, Matrix.smul_mul, hH]

lemma evolution_operator_conj {n : ℕ} (t : ℝ) (H : Matrix (Fin n) (Fin n) ℝ)
    (hH : reflectMatrix n * H.map Complex.ofReal * reflectMatrix n = H.map Complex.ofReal) :
    reflectMatrix n * evolution_operator_of n t H * reflectMatrix n
      = evolution_operator_of n t H := by
  have hJJ := reflectMatrix_mul_self n
  have hB := reflect_conj_inv (backward_part n t H) (backward_part_conj t H hH)
  have hF := forward_part_conj t H hH
  unfold evolution_operator_of
  calc reflectMatrix n * ((backward_part n t H)⁻¹ * forward_part n t H) * reflectMatrix n
      = reflectMatrix n * (backward_part n t H)⁻¹ * (1 : Matrix (Fin n) (Fin n) ℂ)
          * forward_part n t H * reflectMatrix n := by noncomm_ring
    _ = reflectMatrix n * (backward_part n t H)⁻¹ * (reflectMatrix n * reflectMatrix n)
          * forward_part n t H * reflectMatrix n := by rw [hJJ]
    _ = (reflectMatrix n * (backward_part n t H)⁻¹ * reflectMatrix n)
          * (reflectMatrix n * forward_part n t H * reflectMatrix n) := by noncomm_ring
    _ = (backward_part n t H)⁻¹ * forward_part n t H := by rw [hB, hF]

lemma hamiltonian_centro {n : ℕ} (dx : ℝ) (pb : Fin n → ℝ) (hpb : ∀ i, pb i = 0)
    (i j : Fin n) :
    hamiltonian_matrix n dx pb (Fin.rev i) (Fin.rev j) = hamiltonian_matrix n dx pb i j := by
  have hi := i.isLt
  have hj := j.isLt
  have hvi : ((Fin.rev i : Fin n) : ℕ) = n - ((i : ℕ) + 1) := Fin.val_rev i
  have hvj : ((Fin.rev j : Fin n) : ℕ) = n - ((j : ℕ) + 1) := Fin.val_rev j
  have c1 : ((Fin.rev j : Fin n) : ℕ) = ((Fin.rev i : Fin n) : ℕ) ↔ ((j : ℕ) = (i : ℕ)) := by
    rw [hvi, hvj]; omega
  have c2 : ((Fin.rev j : Fin n) : ℕ) = ((Fin.rev i : Fin n) : ℕ) + 1
      ↔ ((i : ℕ) = (j : ℕ) + 1) := by
    rw [hvi, hvj]; omega
  have c3 : ((Fin.rev i : Fin n) : ℕ) = ((Fin.rev j : Fin n) : ℕ) + 1
      ↔ ((j : ℕ) = (i : ℕ) + 1) := by
    rw [hvi, hvj]; omega
  simp only [hamiltonian_matrix, sparse_diags, Matrix.of_apply, hpb, c1, c2, c3]
  ring

lemma hamiltonian_map_conj {n : ℕ} (dx : ℝ) (pb : Fin n → ℝ) (hpb : ∀ i, pb i = 0) :
    reflectMatrix n * (hamiltonian_matrix n dx pb).map Complex.ofReal * reflectMatrix n
      = (hamiltonian_matrix n dx pb).map Complex.ofReal := by
  ext i j
  rw [reflect_conj_apply]
  simp only [Matrix.map_apply]
  exact congrArg Complex.ofReal (hamiltonian_centro dx pb hpb i j)

lemma init_potential_barrier_zero (n : ℕ) (t pw k σ c x_min x_max : ℝ) (i : Fin n) :
    (WavePacket.init n t 0 pw k σ c x_min x_max).potential_barrier i = 0 := by
  simp only [init_potential_barrier]
  exact ite_self 0

lemma init_x_values_rev (n : ℕ) (hn : 2 ≤ n) (t ph pw k σ x_min x_max : ℝ) (i : Fin n) :
    (WavePacket.init n t ph pw k σ ((x_min + x_max) / 2) x_min x_max).x_values (Fin.rev i)
        - (x_min + x_max) / 2
      = -((WavePacket.init n t ph pw k σ ((x_min + x_max) / 2) x_min x_max).x_values i
          - (x_min + x_max) / 2) := by
  simp only [init_x_values]
  have hi : (i : ℕ) < n := i.isLt
  have hvi : ((Fin.rev i : Fin n) : ℕ) = n - ((i : ℕ) + 1) := Fin.val_rev i
  have hd : ((n : ℝ) - 1) ≠ 0 := by
    have h2 : (2 : ℝ) ≤ (n : ℝ) := by exact_mod_cast hn
    nlinarith
  have hcast : (((n - ((i : ℕ) + 1)) : ℕ) : ℝ) = (n : ℝ) - ((i : ℕ) : ℝ) - 1 := by
    have hle : (i : ℕ) + 1 ≤ n := hi
    push_cast [Nat.cast_sub hle]
    ring
  rw [hvi, hcast]
  field_simp
  ring

lemma init_wave_function_rev (n : ℕ) (hn : 2 ≤ n) (t ph pw σ x_min x_max : ℝ) (i : Fin n) :
    (WavePacket.init n t ph pw 0 σ ((x_min + x_max) / 2) x_min x_max).wave_function (Fin.rev i)
      = (WavePacket.init n t ph pw 0 σ ((x_min + x_max) / 2) x_min x_max).wave_function i := by
  have hx := init_x_values_rev n hn t ph pw 0 σ x_min x_max i
  have hsq : ((WavePacket.init n t ph pw 0 σ ((x_min + x_max) / 2) x_min x_max).x_values
        (Fin.rev i) - (x_min + x_max) / 2) ^ 2
      = ((WavePacket.init n t ph pw 0 σ ((x_min + x_max) / 2) x_min x_max).x_values i
          - (x_min + x_max) / 2) ^ 2 := by
    rw [hx]; ring
  simp only [init_wave_function]
  rw [hsq]
  norm_num

lemma mulVec_rev {n : ℕ} (M : Matrix (Fin n) (Fin n) ℂ)
    (hM : ∀ i j, M (Fin.rev i) (Fin.rev j) = M i j) (v : Fin n → ℂ)
    (hv : ∀ i, v (Fin.rev i) = v i) (i : Fin n) :
    M.mulVec v (Fin.rev i) = M.mulVec v i := by
  simp only [Matrix.mulVec, dotProduct]
  refine Fintype.sum_equiv Fin.revPerm _ _ fun j => ?_
  have h1 : M (Fin.rev i) j = M i (Fin.rev j) := by
    have h := hM i (Fin.rev j)
    rw [Fin.rev_rev] at h
    exact h
  show M (Fin.rev i) j * v j = M i (Fin.rev j) * v (Fin.rev j)
  rw [h1, hv j]

lemma step_preserves_rev_symm {n : ℕ} (w : WavePacket n)
    (hE : ∀ i j, w.evolution_operator (Fin.rev i) (Fin.rev j) = w.evolution_operator i j)
    (hv : ∀ i, w.wave_function (Fin.rev i) = w.wave_function i) :
    (∀ i, (w.step).wave_function (Fin.rev i) = (w.step).wave_function i)
      ∧ ∀ i, (w.step).prob_density (Fin.rev i) = (w.step).prob_density i := by
  have hnew : ∀ i, w.new_wave_function (Fin.rev i) = w.new_wave_function i :=
    fun i => mulVec_rev w.evolution_operator hE w.wave_function hv i
  have hraw : ∀ i, w.raw_density (Fin.rev i) = w.raw_density i := by
    intro i
    unfold WavePacket.raw_density
    rw [hnew i]
  constructor
  · intro i
    show w.new_wave_function (Fin.rev i) / _ = w.new_wave_function i / _
    rw [hnew i]
  · intro i
    show w.raw_density (Fin.rev i) / _ = w.raw_density i / _
    rw [hraw i]

lemma iterate_step_rev_symm {n : ℕ} (w : WavePacket n)
    (hE : ∀ a b, w.evolution_operator (Fin.rev a) (Fin.rev b) = w.evolution_operator a b)
    (hwf : ∀ i, w.wave_function (Fin.rev i) = w.wave_function i)
    (hpd : ∀ i, w.prob_density (Fin.rev i) = w.prob_density i) (k : ℕ) :
    ∀ i, ((WavePacket.step)^[k] w).prob_density (Fin.rev i)
      = ((WavePacket.step)^[k] w).prob_density i := by
  induction k generalizing w with
  | zero => simpa using hpd
  | succ k ih =>
    rw [Function.iterate_succ_apply]
    have hres := step_preserves_rev_symm w hE hwf
    exact ih (w.step) hE hres.1 hres.2

/-- C8: for an engine constructed with `potential_height = 0`,
`wave_number = 0`, and `packet_center` at the grid midpoint, the
probability density after any number of steps is symmetric under index
reflection: `density[i] = density[N−1−i]` (exactly, in exact arithmetic). -/
theorem C8_free_propagation_symmetric (n : ℕ) (hn : 2 ≤ n)
    (t pw σ c x_min x_max : ℝ) (hc : c = (x_min + x_max) / 2) (k : ℕ) (i : Fin n) :
    ((WavePacket.step)^[k] (WavePacket.init n t 0 pw 0 σ c x_min x_max)).prob_density i
      = ((WavePacket.step)^[k]
          (WavePacket.init n t 0 pw 0 σ c x_min x_max)).prob_density (Fin.rev i) := by
  subst hc
  have hpb : ∀ a, (WavePacket.init n t 0 pw 0 σ ((x_min + x_max) / 2)
      x_min x_max).potential_barrier a = 0 :=
    fun a => init_potential_barrier_zero n t pw 0 σ ((x_min + x_max) / 2) x_min x_max a
  have hHm := hamiltonian_map_conj
    ((WavePacket.init n t 0 pw 0 σ ((x_min + x_max) / 2) x_min x_max).delta_x)
    ((WavePacket.init n t 0 pw 0 σ ((x_min + x_max) / 2) x_min x_max).potential_barrier) hpb
  have hEconj : reflectMatrix n
        * (WavePacket.init n t 0 pw 0 σ ((x_min + x_max) / 2) x_min x_max).evolution_operator
        * reflectMatrix n
      = (WavePacket.init n t 0 pw 0 σ ((x_min + x_max) / 2) x_min x_max).evolution_operator := by
    rw [init_evolution_operator]
    exact evolution_operator_conj t _ hHm
  have hEentry : ∀ a b,
      (WavePacket.init n t 0 pw 0 σ ((x_min + x_max) / 2) x_min
          x_max).evolution_operator (Fin.rev a) (Fin.rev b)
        = (WavePacket.init n t 0 pw 0 σ ((x_min + x_max) / 2) x_min
            x_max).evolution_operator a b := by
    intro a b
    rw [← reflect_conj_apply ((WavePacket.init n t 0 pw 0 σ ((x_min + x_max) / 2) x_min
      x_max).evolution_operator) a b, hEconj]
  have hwf : ∀ a, (WavePacket.init n t 0 pw 0 σ ((x_min + x_max) / 2) x_min
        x_max).wave_function (Fin.rev a)
      = (WavePacket.init n t 0 pw 0 σ ((x_min + x_max) / 2) x_min x_max).wave_function a :=
    fun a => init_wave_function_rev n hn t 0 pw σ x_min x_max a
  have hpd : ∀ a, (WavePacket.init n t 0 pw 0 σ ((x_min + x_max) / 2) x_min
        x_max).prob_density (Fin.rev a)
      = (WavePacket.init n t 0 pw 0 σ ((x_min + x_max) / 2) x_min x_max).prob_density a :=
    fun a => rfl
  exact (iterate_step_rev_symm _ hEentry hwf hpd k i).symm

/-- Witness for C8 at a concrete configuration: grid of 4 points on
`[-1, 1]`, zero barrier height, zero wave number, packet centered at the
midpoint `0`, after 2 steps, at index 1. -/
theorem C8_witness :
    2 ≤ 4 ∧ (0 : ℝ) = (-1 + 1) / 2
      ∧ ((WavePacket.step)^[2] (WavePacket.init 4 1 0 1 0 1 0 (-1) 1)).prob_density 1
          = ((WavePacket.step)^[2]
              (WavePacket.init 4 1 0 1 0 1 0 (-1) 1)).prob_density (Fin.rev 1) := by
  have h1 : (2 : ℕ) ≤ 4 := by norm_num
  have h2 : (0 : ℝ) = (-1 + 1) / 2 := by norm_num
  exact ⟨h1, h2, C8_free_propagation_symmetric 4 h1 1 1 1 0 (-1) 1 h2 2 1⟩

end
